import Mathlib

/-!
Shallow embedding of the arca path library: the lexical path type and its
normalization algorithm (resolve_path), the derived operations (join,
relative_to, contains, iter_path) from src/lib.rs, the ancestor trie built
on the radix_trie crate, and the normalize_path helper from src/path.rs.
Strings are modelled as lists of characters; the separator is the slash
character.
-/

namespace Arca

/-- The current-directory component, the one-character string of a dot. -/
def dot : List Char := ['.']

/-- The parent-directory component, the two-character string of two dots. -/
def dd : List Char := ['.', '.']

/-- Splitting a string at every slash, keeping empty pieces, exactly as the
Rust split iterator on the separator character does. -/
def splitSep : List Char → List (List Char)
  | [] => [[]]
  | c :: rest =>
    if c = '/' then [] :: splitSep rest
    else
      match splitSep rest with
      | [] => [[c]]
      | s :: ss => (c :: s) :: ss

/-- Joining components with slashes, as joining a vector of string slices
with the separator string does. -/
def joinSep : List (List Char) → List Char
  | [] => []
  | [s] => s
  | s :: rest => s ++ '/' :: joinSep rest

/-- One step of the output-stack loop inside resolve_path in src/lib.rs:
a parent component pops a real last entry, is dropped at the absolute-root
sentinel, and is pushed when the stack is empty or already ends in a parent
component; a dot is dropped; an empty component is pushed only onto an
empty stack; every other component is pushed. -/
def resolveStep (path : List (List Char)) (component : List Char) : List (List Char) :=
  if component = dd then
    match path.getLast? with
    | some last =>
      if last = [] then path
      else if last = dd then path ++ [dd]
      else path.dropLast
    | none => path ++ [dd]
  else if component = dot then path
  else if component = [] then
    if path = [] then [[]] else path
  else path ++ [component]

/-- The function resolve_path of src/lib.rs: the empty input is returned
unchanged; otherwise the slash-separated components are folded through the
output stack, a trailing empty marker is appended when the input ends with
the separator, and a stack holding exactly one empty component prints as
the one-character root string. -/
def resolve_path (input : List Char) : List Char :=
  if input = [] then []
  else
    let path := (splitSep input).foldl resolveStep []
    let path := if input.getLast? = some '/' then path ++ [[]] else path
    if path = [[]] then ['/'] else joinSep path

/-- The Path value type of src/lib.rs: a single string buffer. -/
structure Path where
  path : List Char
deriving DecidableEq

/-- Construction from a raw string, the From impl of src/lib.rs, which
stores the normalization of the input. -/
def Path.fromStr (s : List Char) : Path :=
  ⟨resolve_path s⟩

/-- Path::empty of src/lib.rs. -/
def Path.empty : Path := ⟨[]⟩

/-- Path::root of src/lib.rs. -/
def Path.root : Path := ⟨['/']⟩

/-- Path::is_absolute of src/lib.rs: the string starts with a slash. -/
def Path.is_absolute (p : Path) : Bool :=
  p.path.head? == some '/'

/-- Path::contains of src/lib.rs: the other string starts with this one,
or the two paths are equal. -/
def Path.contains (self other : Path) : Bool :=
  List.isPrefixOf self.path other.path || other == self

/-- Path::join of src/lib.rs, in its value-returning form with_join: a
nonempty other replaces self when self is empty or other is absolute, and
is otherwise appended behind a separator, re-running normalization. -/
def Path.join (self other : Path) : Path :=
  if other.path = [] then self
  else if self.path = [] ∨ other.is_absolute then other
  else
    Path.fromStr
      ((if self.path.getLast? = some '/' then self.path else self.path ++ ['/']) ++ other.path)

/-- The trim_end_matches call on the separator inside relative_to: all
trailing slashes are removed. -/
def trimTrail (s : List Char) : List Char :=
  (s.reverse.dropWhile (fun c => c == '/')).reverse

/-- The body of Path::relative_to of src/lib.rs, past its two assertions:
the common leading components are counted by zipping, one parent component
is emitted per remaining component of the base (the loop guard in the
source is invariantly true inside the loop, so the loop is a replicate),
the remaining components of self follow, a trailing empty marker mirrors a
trailing slash of self, and an empty list produces the path of a dot. -/
def relativeToCore (self other : Path) : Path :=
  let ends_with_slash := self.path.getLast? == some '/'
  let self_components := splitSep (trimTrail self.path)
  let other_components := splitSep (trimTrail other.path)
  let common := ((self_components.zip other_components).takeWhile (fun p => p.1 == p.2)).length
  let rel1 := List.replicate (other_components.length - common) dd
  let rel2 := rel1 ++ self_components.drop common
  let rel3 := if ends_with_slash then rel2 ++ [([] : List Char)] else rel2
  if rel3 = [] then Path.fromStr dot else Path.fromStr (joinSep rel3)

/-- Path::relative_to of src/lib.rs: the two leading assertions demand
that both operands be absolute; the assertion failure (a Rust panic) is
modelled as none, and the computed relative path as some. -/
def Path.relative_to (self other : Path) : Option Path :=
  if self.is_absolute && other.is_absolute then some (relativeToCore self other) else none

/-- The PathIterator struct of src/lib.rs. -/
structure PathIterator where
  components : List (List Char)
  front_idx : Nat
  back_idx : Nat
  has_trailing_slash : Bool
deriving DecidableEq

/-- The strip_prefix call on the separator: one leading slash is removed. -/
def stripLeadSlash (s : List Char) : List Char :=
  match s with
  | '/' :: rest => rest
  | _ => s

/-- The strip_suffix call on the separator: one trailing slash is removed. -/
def stripTrailSlash (s : List Char) : List Char :=
  if s.getLast? = some '/' then s.dropLast else s

/-- PathIterator::new of src/lib.rs: one leading slash and one trailing
slash are stripped, a leading empty component is recorded for an absolute
path, the remainder is split on the separator when nonempty, and the
cursor pair starts at one and at the component count. -/
def PathIterator.new (p : Path) : PathIterator :=
  let path_str := p.path
  let has_leading_slash := path_str.head? == some '/'
  let has_trailing_slash := path_str.getLast? == some '/' && path_str.length > 1
  let components_path := stripTrailSlash (stripLeadSlash path_str)
  let components :=
    (if has_leading_slash then [([] : List Char)] else []) ++
    (if components_path.length > 0 then splitSep components_path else [])
  ⟨components, 1, components.length, has_trailing_slash⟩

/-- Iterator::next of PathIterator in src/lib.rs: nothing past the back
cursor; the first index yields the root; later indices join the leading
components and restore a trailing slash, running the Path construction. -/
def PathIterator.nextFn (it : PathIterator) : Option (Path × PathIterator) :=
  if it.front_idx > it.back_idx then none
  else
    let it' : PathIterator := ⟨it.components, it.front_idx + 1, it.back_idx, it.has_trailing_slash⟩
    if it.front_idx = 1 then some (Path.root, it')
    else
      let p := joinSep (it.components.take it.front_idx)
      let p := if it.has_trailing_slash then p ++ ['/'] else p
      some (Path.fromStr p, it')

/-- DoubleEndedIterator::next_back of PathIterator in src/lib.rs: nothing
once the cursors cross; the first index yields the root path; later
indices join the leading components without restoring a trailing slash. -/
def PathIterator.nextBackFn (it : PathIterator) : Option (Path × PathIterator) :=
  if it.front_idx > it.back_idx then none
  else
    let it' : PathIterator := ⟨it.components, it.front_idx, it.back_idx - 1, it.has_trailing_slash⟩
    if it.back_idx = 1 then some (Path.fromStr ['/'], it')
    else some (Path.fromStr (joinSep (it.components.take it.back_idx)), it')

/-- Running next to exhaustion, with fuel: each successful next raises the
front cursor by one, so fuel equal to the remaining cursor distance runs
the iterator to its end. -/
def frontItemsAux : Nat → PathIterator → List Path
  | 0, _ => []
  | n + 1, it =>
    match it.nextFn with
    | none => []
    | some (p, it') => p :: frontItemsAux n it'

/-- The full front-to-back item sequence of the iterator. -/
def PathIterator.frontItems (it : PathIterator) : List Path :=
  frontItemsAux (it.back_idx + 1 - it.front_idx) it

/-- Running next_back to exhaustion, with fuel, symmetrically. -/
def backItemsAux : Nat → PathIterator → List Path
  | 0, _ => []
  | n + 1, it =>
    match it.nextBackFn with
    | none => []
    | some (p, it') => p :: backItemsAux n it'

/-- The full back-to-front item sequence of the iterator. -/
def PathIterator.backItems (it : PathIterator) : List Path :=
  backItemsAux (it.back_idx + 1 - it.front_idx) it

/-- Path::iter_path of src/lib.rs. -/
def Path.iter_path (p : Path) : PathIterator :=
  PathIterator.new p

/-- The Trie struct of src/lib.rs, a radix_trie keyed by strings holding a
pair of a Path and a value; the external radix trie is modelled as the
list of its key-value entries, exact keys kept unique by insert. -/
structure Trie (T : Type) where
  entries : List (List Char × (Path × T))

/-- The empty trie, Trie::default of src/lib.rs. -/
def Trie.emptyT (T : Type) : Trie T := ⟨[]⟩

/-- Trie::key of src/lib.rs: the path string, given a trailing slash when
it lacks one. -/
def Trie.key (k : Path) : List Char :=
  if k.path.getLast? = some '/' then k.path else k.path ++ ['/']

/-- One step of the longest-prefix search: a candidate whose key is a
prefix of the query replaces the best seen so far when strictly longer. -/
def gaStep {T : Type} (q : List Char) :
    Option (List Char × (Path × T)) → List Char × (Path × T) →
      Option (List Char × (Path × T))
  | none, e => if List.isPrefixOf e.1 q then some e else none
  | some b, e =>
    if List.isPrefixOf e.1 q then
      if b.1.length < e.1.length then some e else some b
    else some b

/-- Modelled from the documented contract of the external radix_trie
crate: get_ancestor fetches the entry whose key is the longest stored key
that is a prefix of the given key, here computed by a fold keeping the
longest prefix candidate seen. -/
def Trie.get_ancestor_entry {T : Type} (t : Trie T) (q : List Char) :
    Option (List Char × (Path × T)) :=
  t.entries.foldl (gaStep q) none

/-- Trie::get_ancestor_record of src/lib.rs. -/
def Trie.get_ancestor_record {T : Type} (t : Trie T) (key : Path) :
    Option (List Char × Path × T) :=
  (t.get_ancestor_entry (Trie.key key)).map (fun e => (e.1, e.2.1, e.2.2))

/-- Trie::get_ancestor_key of src/lib.rs. -/
def Trie.get_ancestor_key {T : Type} (t : Trie T) (key : Path) : Option (List Char) :=
  (t.get_ancestor_entry (Trie.key key)).map (fun e => e.1)

/-- Trie::get_ancestor_path of src/lib.rs. -/
def Trie.get_ancestor_path {T : Type} (t : Trie T) (key : Path) : Option Path :=
  (t.get_ancestor_entry (Trie.key key)).map (fun e => e.2.1)

/-- Trie::get_ancestor_value of src/lib.rs. -/
def Trie.get_ancestor_value {T : Type} (t : Trie T) (key : Path) : Option T :=
  (t.get_ancestor_entry (Trie.key key)).map (fun e => e.2.2)

/-- Trie::get of src/lib.rs: exact-match lookup on the forced key. -/
def Trie.get {T : Type} (t : Trie T) (key : Path) : Option T :=
  (t.entries.find? (fun e => e.1 == Trie.key key)).map (fun e => e.2.2)

/-- Trie::insert of src/lib.rs: the entry is stored under the forced key,
holding the Path rebuilt from that forced key (not the inserted Path) next
to the value; the map semantics of the backing trie keep one entry per
exact key. -/
def Trie.insert {T : Type} (t : Trie T) (key : Path) (value : T) : Trie T :=
  let k := Trie.key key
  ⟨(k, (Path.fromStr k, value)) :: t.entries.filter (fun e => e.1 != k)⟩

/-- Trie::remove of src/lib.rs: the exact-match entry is deleted. -/
def Trie.remove {T : Type} (t : Trie T) (key : Path) : Trie T :=
  ⟨t.entries.filter (fun e => e.1 != Trie.key key)⟩

/-- Modelled from the documented contract of the external clean-path crate
used by src/path.rs, which implements lexical cleaning in the manner of
the Go standard path Clean function: empty and dot components vanish, a
parent component pops a previous real component, is dropped at a root, and
is kept on an unresolvable relative upward reference, a rooted input keeps
its leading slash, and an empty outcome becomes the dot string. -/
def cleanGo (s : List Char) : List Char :=
  let rooted := s.head? == some '/'
  let out := (splitSep s).foldl
    (fun out c =>
      if c = [] ∨ c = dot then out
      else if c = dd then
        if out ≠ [] ∧ out.getLast? ≠ some dd then out.dropLast
        else if rooted then out
        else out ++ [dd]
      else out ++ [c])
    []
  let res := (if rooted then ['/'] else []) ++ joinSep out
  if res = [] then dot else res

/-- The function normalize_path of src/path.rs: the input is cleaned by
the clean-path crate, then a trailing slash present in the original and
lost by cleaning is restored. -/
def normalize_path (original : List Char) : List Char :=
  let str := cleanGo original
  if original.getLast? = some '/' ∧ str.getLast? ≠ some '/' then str ++ ['/'] else str

/-- Modelled from the spec, as the refinement target of C1: step 2 of the
normalization algorithm of section 4.1, in the spec's order: a dot is
dropped; a parent component is dropped silently at the absolute-root
sentinel, cancels a real last entry, and is otherwise kept as an
unresolvable upward reference; an empty component is pushed only onto an
empty stack; any other component is pushed as-is. -/
def specStep (stack : List (List Char)) (c : List Char) : List (List Char) :=
  if c = dot then stack
  else if c = dd then
    match stack.getLast? with
    | some last =>
      if last = [] then stack
      else if last ≠ dd then stack.dropLast
      else stack ++ [dd]
    | none => stack ++ [dd]
  else if c = [] then
    if stack = [] then [[]] else stack
  else stack ++ [c]

/-- Modelled from the spec: the components are processed left to right
against the output stack. -/
def specNorm : List (List Char) → List (List Char) → List (List Char)
  | stack, [] => stack
  | stack, c :: cs => specNorm (specStep stack c) cs

/-- Modelled from the spec: the whole resolution of section 4.1 — split on
the separator (empty input unchanged), process left to right, append a
trailing marker when the input ended with the separator, and print a stack
of exactly one empty component as the root string. -/
def resolveSpec (input : List Char) : List Char :=
  if input = [] then []
  else
    let stack := specNorm [] (splitSep input)
    let stack := if input.getLast? = some '/' then stack ++ [[]] else stack
    if stack = [[]] then ['/'] else joinSep stack

/-- A good component: a real path component as kept by normalization,
neither empty nor a dot nor a double dot, and slash-free. -/
def goodComp (c : List Char) : Prop :=
  c ≠ [] ∧ c ≠ dot ∧ c ≠ dd ∧ '/' ∉ c

/-- All components of a list are good. -/
def goodComps (l : List (List Char)) : Prop :=
  ∀ c ∈ l, goodComp c

/-- The canonical absolute string with the given real components and
trailing-slash flag; the root is the case of no components. -/
def absStr (cs : List (List Char)) (t : Bool) : List Char :=
  '/' :: joinSep (cs ++ (if t then [[]] else []))

/-- The canonical relative string: leading parent components, then real
components, then an optional trailing-slash marker. -/
def relStr (m : Nat) (cs : List (List Char)) (t : Bool) : List Char :=
  joinSep (List.replicate m dd ++ cs ++ (if t then [[]] else []))

/-- The shape invariant of the resolve_path output stack: either parent
components followed by real components, or the absolute-root sentinel
followed by real components. -/
def StackOk (st : List (List Char)) : Prop :=
  (∃ m reals, goodComps reals ∧ st = List.replicate m dd ++ reals) ∨
  (∃ reals, goodComps reals ∧ st = [] :: reals)

/-- The common-prefix count of two component lists, as relative_to
computes it by zipping and counting while equal. -/
def cplLen (a b : List (List Char)) : Nat :=
  ((a.zip b).takeWhile (fun p => p.1 == p.2)).length

/-! Helper lemmas. -/

/-- The common-prefix count of a cons pair. -/
lemma cplLen_cons (x y : List Char) (a b : List (List Char)) :
    cplLen (x :: a) (y :: b) = if x = y then cplLen a b + 1 else 0 := by
  unfold cplLen
  rw [List.zip_cons_cons, List.takeWhile_cons]
  by_cases h : x = y
  · rw [if_pos h]
    simp [h]
  · rw [if_neg h]
    simp [h]

/-- The common-prefix count is bounded by the first length. -/
lemma cplLen_le_left : ∀ (a b : List (List Char)), cplLen a b ≤ a.length
  | [], _ => le_refl 0
  | _ :: _, [] => by simp [cplLen]
  | x :: a, y :: b => by
    rw [cplLen_cons]
    by_cases h : x = y
    · rw [if_pos h]
      simpa using cplLen_le_left a b
    · rw [if_neg h]
      simp

/-- The common-prefix count is bounded by the second length. -/
lemma cplLen_le_right : ∀ (a b : List (List Char)), cplLen a b ≤ b.length
  | [], _ => by simp [cplLen]
  | _ :: _, [] => by simp [cplLen]
  | x :: a, y :: b => by
    rw [cplLen_cons]
    by_cases h : x = y
    · rw [if_pos h]
      simpa using cplLen_le_right a b
    · rw [if_neg h]
      simp

/-- Both lists agree on their common-prefix count many first elements. -/
lemma take_cplLen : ∀ (a b : List (List Char)),
    a.take (cplLen a b) = b.take (cplLen a b)
  | [], b => by simp [cplLen]
  | _ :: _, [] => by simp [cplLen]
  | x :: a, y :: b => by
    rw [cplLen_cons]
    by_cases h : x = y
    · rw [if_pos h]
      simp only [List.take_succ_cons]
      rw [h, take_cplLen a b]
    · rw [if_neg h]
      simp

/-- The common-prefix count of a list with itself is its length. -/
lemma cplLen_self : ∀ (l : List (List Char)), cplLen l l = l.length
  | [] => rfl
  | x :: l => by
    rw [cplLen_cons, if_pos rfl, cplLen_self l]
    rfl

/-- A full common prefix on both sides forces equality. -/
lemma cplLen_full_eq {a b : List (List Char)} (h1 : cplLen a b = a.length)
    (h2 : cplLen a b = b.length) : a = b := by
  have := take_cplLen a b
  rw [h1, List.take_length] at this
  rw [this, show a.length = b.length from by omega, List.take_length]

/-- Splitting never yields the empty list of components. -/
lemma splitSep_ne_nil : ∀ s : List Char, splitSep s ≠ []
  | [] => by simp [splitSep]
  | c :: rest => by
    unfold splitSep
    by_cases h : c = '/'
    · simp [h]
    · rw [if_neg h]
      cases hs : splitSep rest <;> simp

/-- Splitting a cons on the separator. -/
lemma splitSep_cons_slash (rest : List Char) :
    splitSep ('/' :: rest) = [] :: splitSep rest := rfl

/-- Splitting a cons on a non-separator extends the first component. -/
lemma splitSep_cons_of_ne {c : Char} (rest : List Char) (h : c ≠ '/')
    {s0 : List Char} {ss : List (List Char)} (hs : splitSep rest = s0 :: ss) :
    splitSep (c :: rest) = (c :: s0) :: ss := by
  unfold splitSep
  rw [if_neg h, hs]

/-- A slash-free string splits into itself alone. -/
lemma splitSep_no_slash : ∀ {c : List Char}, '/' ∉ c → splitSep c = [c]
  | [], _ => rfl
  | a :: rest, h => by
    have ha : a ≠ '/' := fun he => h (he ▸ List.mem_cons_self a rest)
    have hr : '/' ∉ rest := fun hm => h (List.mem_cons_of_mem a hm)
    exact splitSep_cons_of_ne rest ha (splitSep_no_slash hr)

/-- Splitting distributes over concatenation at an explicit separator. -/
lemma splitSep_append : ∀ (a b : List Char), splitSep (a ++ '/' :: b) = splitSep a ++ splitSep b
  | [], b => by simp [splitSep_cons_slash, splitSep]
  | c :: a, b => by
    by_cases h : c = '/'
    · subst h
      rw [List.cons_append, splitSep_cons_slash, splitSep_cons_slash, splitSep_append a b,
        List.cons_append]
    · rcases hs : splitSep a with _ | ⟨s0, ss⟩
      · exact absurd hs (splitSep_ne_nil a)
      · have hs2 : splitSep (a ++ '/' :: b) = s0 :: (ss ++ splitSep b) := by
          rw [splitSep_append a b, hs, List.cons_append]
        rw [List.cons_append, splitSep_cons_of_ne _ h hs2, splitSep_cons_of_ne _ h hs,
          List.cons_append]

/-- Every component produced by splitting is slash-free. -/
lemma mem_splitSep_no_slash : ∀ {s : List Char} {c : List Char}, c ∈ splitSep s → '/' ∉ c
  | [], c, hm => by
    simp [splitSep] at hm
    simp [hm]
  | a :: rest, c, hm => by
    by_cases h : a = '/'
    · subst h
      rw [splitSep_cons_slash] at hm
      rcases List.mem_cons.mp hm with h1 | h1
      · simp [h1]
      · exact mem_splitSep_no_slash h1
    · rcases hs : splitSep rest with _ | ⟨s0, ss⟩
      · exact absurd hs (splitSep_ne_nil rest)
      · rw [splitSep_cons_of_ne rest h hs] at hm
        rcases List.mem_cons.mp hm with h1 | h1
        · subst h1
          intro hmem
          rcases List.mem_cons.mp hmem with h2 | h2
          · exact h h2.symm
          · exact mem_splitSep_no_slash (hs ▸ List.mem_cons_self s0 ss) h2
        · exact mem_splitSep_no_slash (hs ▸ List.mem_cons_of_mem s0 h1)

/-- Joining a cons onto a nonempty tail inserts one separator. -/
lemma joinSep_cons (a : List Char) {l : List (List Char)} (h : l ≠ []) :
    joinSep (a :: l) = a ++ '/' :: joinSep l := by
  cases l with
  | nil => exact absurd rfl h
  | cons b t => rfl

/-- Joining distributes over concatenation of nonempty component lists. -/
lemma joinSep_append : ∀ (l1 : List (List Char)) {l2 : List (List Char)}, l1 ≠ [] → l2 ≠ [] →
    joinSep (l1 ++ l2) = joinSep l1 ++ '/' :: joinSep l2
  | [], _, h1, _ => absurd rfl h1
  | [a], l2, _, h2 => by
    rw [List.singleton_append, joinSep_cons a h2]
    rfl
  | a :: b :: t, l2, _, h2 => by
    have ih := joinSep_append (b :: t) (by simp) h2
    rw [List.cons_append, joinSep_cons a (by simp), ih, joinSep_cons a (by simp)]
    simp

/-- Joining after appending one last component. -/
lemma joinSep_concat (x : List Char) {l : List (List Char)} (h : l ≠ []) :
    joinSep (l ++ [x]) = joinSep l ++ '/' :: x :=
  joinSep_append l h (by simp)

/-- Splitting inverts joining on nonempty slash-free component lists. -/
lemma splitSep_joinSep : ∀ {l : List (List Char)}, l ≠ [] → (∀ c ∈ l, '/' ∉ c) →
    splitSep (joinSep l) = l
  | [], h, _ => absurd rfl h
  | [a], _, hc => by
    show splitSep a = [a]
    exact splitSep_no_slash (hc a (by simp))
  | a :: b :: t, _, hc => by
    rw [joinSep_cons a (by simp), splitSep_append, splitSep_no_slash (hc a (by simp))]
    have := splitSep_joinSep (l := b :: t) (by simp) (fun c hm => hc c (List.mem_cons_of_mem a hm))
    rw [this]
    rfl

/-- The head of a join starting with a nonempty component. -/
lemma joinSep_head_of_ne {c : List Char} (l : List (List Char)) (h : c ≠ []) :
    (joinSep (c :: l)).head? = c.head? := by
  cases l with
  | nil => rfl
  | cons b t =>
    rw [joinSep_cons c (by simp)]
    cases c with
    | nil => exact absurd rfl h
    | cons x xs => rfl

/-- A join starting with a nonempty component is nonempty. -/
lemma joinSep_ne_nil {c : List Char} (l : List (List Char)) (h : c ≠ []) :
    joinSep (c :: l) ≠ [] := by
  intro he
  have := joinSep_head_of_ne l h
  rw [he] at this
  cases c with
  | nil => exact h rfl
  | cons x xs => simp at this

/-- The last character of a join ending in the empty marker is a slash. -/
lemma joinSep_concat_nil_getLast {l : List (List Char)} (h : l ≠ []) :
    (joinSep (l ++ [[]])).getLast? = some '/' := by
  rw [joinSep_concat [] h]
  simp

/-- The last character of a join ending in a nonempty component is that
component's last character. -/
lemma joinSep_concat_getLast (l : List (List Char)) {x : List Char} (hx : x ≠ []) :
    (joinSep (l ++ [x])).getLast? = x.getLast? := by
  cases l with
  | nil => rfl
  | cons a t =>
    rw [joinSep_concat x (by simp)]
    rw [List.getLast?_append_of_ne_nil _ (by simp : ('/' :: x) ≠ [])]
    cases x with
    | nil => exact absurd rfl hx
    | cons y ys => simp [List.getLast?_cons_cons]

/-- Zipping a list with itself satisfies the equality test everywhere. -/
lemma takeWhile_zip_self (l : List (List Char)) :
    (l.zip l).takeWhile (fun p => p.1 == p.2) = l.zip l := by
  induction l with
  | nil => rfl
  | cons x xs ih => simp [List.zip_cons_cons, List.takeWhile_cons, ih]

/-- The common-prefix count of a list against itself is its length. -/
lemma commonCount_self (l : List (List Char)) :
    ((l.zip l).takeWhile (fun p => p.1 == p.2)).length = l.length := by
  rw [takeWhile_zip_self, List.length_zip, Nat.min_self]

/-- A good component is pushed by the resolve step whatever the stack. -/
lemma resolveStep_good {c : List Char} (st : List (List Char)) (h : goodComp c) :
    resolveStep st c = st ++ [c] := by
  obtain ⟨h1, h2, h3, _⟩ := h
  unfold resolveStep
  rw [if_neg h3, if_neg h2, if_neg h1]

/-- Folding good components pushes them all. -/
lemma foldl_resolveStep_good : ∀ {cs : List (List Char)} (st : List (List Char)),
    goodComps cs → List.foldl resolveStep st cs = st ++ cs
  | [], st, _ => by simp
  | c :: cs, st, h => by
    rw [List.foldl_cons, resolveStep_good st (h c (by simp)),
      foldl_resolveStep_good (st ++ [c]) (fun x hx => h x (List.mem_cons_of_mem c hx))]
    simp

/-- The resolve step pushes a parent component onto a stack of parent
components. -/
lemma resolveStep_dd_on_dds (k : Nat) :
    resolveStep (List.replicate k dd) dd = List.replicate (k + 1) dd := by
  unfold resolveStep
  rw [if_pos rfl]
  cases k with
  | zero => simp
  | succ n =>
    have hlast : (List.replicate (n + 1) dd).getLast? = some dd := by
      rw [List.replicate_succ' n dd, List.getLast?_concat]
    simp only [hlast]
    have h1 : ¬ dd = ([] : List Char) := by decide
    rw [if_neg h1, if_pos trivial, ← List.replicate_succ' (n + 1) dd]

/-- Folding parent components onto parent components accumulates them. -/
lemma foldl_resolveStep_dds_rel (m : Nat) : ∀ (k : Nat),
    List.foldl resolveStep (List.replicate k dd) (List.replicate m dd) =
      List.replicate (k + m) dd := by
  induction m with
  | zero => intro k; simp
  | succ n ih =>
    intro k
    rw [List.replicate_succ, List.foldl_cons, resolveStep_dd_on_dds k, ih (k + 1)]
    congr 1
    omega

/-- Folding parent components onto an absolute stack pops real components
from its end, stopping at the root sentinel. -/
lemma foldl_resolveStep_dds_abs (m : Nat) : ∀ (cs : List (List Char)), goodComps cs →
    List.foldl resolveStep ([] :: cs) (List.replicate m dd) =
      [] :: cs.take (cs.length - m) := by
  induction m with
  | zero => intro cs _; simp
  | succ n ih =>
    intro cs hg
    rw [List.replicate_succ, List.foldl_cons]
    rcases List.eq_nil_or_concat cs with hc | ⟨ci, r, hc⟩
    · subst hc
      have hstep : resolveStep [([] : List Char)] dd = [([] : List Char)] := by
        unfold resolveStep
        rw [if_pos rfl]
        simp
      rw [hstep]
      have := ih [] (by intro c hm; simp at hm)
      simpa using this
    · rw [List.concat_eq_append] at hc
      subst hc
      have hlast : (([] : List Char) :: (ci ++ [r])).getLast? = some r := by
        rw [← List.cons_append, List.getLast?_concat]
      have hr := hg r (by simp)
      have hstep : resolveStep ([] :: (ci ++ [r])) dd = [] :: ci := by
        unfold resolveStep
        rw [if_pos rfl]
        simp only [hlast]
        rw [if_neg hr.1, if_neg hr.2.2.1, ← List.cons_append, List.dropLast_concat]
      rw [hstep, ih ci (fun x hx => hg x (List.mem_append_left [r] hx))]
      congr 1
      have h1 : (ci ++ [r]).length - (n + 1) = ci.length - n := by
        simp
      rw [h1, List.take_append_of_le_length (by omega)]

/-- The resolve step keeps a nonempty stack unchanged on an empty
component. -/
lemma resolveStep_nil_ne (st : List (List Char)) (h : st ≠ []) :
    resolveStep st [] = st := by
  unfold resolveStep
  rw [if_neg (by decide : ¬([] : List Char) = dd), if_neg (by decide : ¬([] : List Char) = dot),
    if_pos rfl, if_neg h]

/-- Any slash-free component preserves the stack shape invariant. -/
lemma stackOk_step {st : List (List Char)} {c : List Char} (hc : '/' ∉ c) (h : StackOk st) :
    StackOk (resolveStep st c) := by
  by_cases hdd : c = dd
  · subst hdd
    rcases h with ⟨m, reals, hg, rfl⟩ | ⟨reals, hg, rfl⟩
    · rcases List.eq_nil_or_concat reals with hr | ⟨ri, r, hr⟩
      · subst hr
        rw [List.append_nil]
        cases m with
        | zero =>
          have : resolveStep [] dd = [dd] := rfl
          rw [List.replicate_zero, this]
          exact Or.inl ⟨1, [], by intro c hm; simp at hm, by simp⟩
        | succ n =>
          rw [resolveStep_dd_on_dds (n + 1)]
          exact Or.inl ⟨n + 2, [], by intro c hm; simp at hm, by simp⟩
      · rw [List.concat_eq_append] at hr
        subst hr
        have hrg := hg r (by simp)
        have hlast : (List.replicate m dd ++ (ri ++ [r])).getLast? = some r := by
          rw [← List.append_assoc, List.getLast?_concat]
        have hstep : resolveStep (List.replicate m dd ++ (ri ++ [r])) dd =
            List.replicate m dd ++ ri := by
          unfold resolveStep
          rw [if_pos rfl]
          simp only [hlast]
          rw [if_neg hrg.1, if_neg hrg.2.2.1, ← List.append_assoc, List.dropLast_concat]
        rw [hstep]
        exact Or.inl ⟨m, ri, fun x hx => hg x (List.mem_append_left [r] hx), rfl⟩
    · rcases List.eq_nil_or_concat reals with hr | ⟨ri, r, hr⟩
      · subst hr
        have hstep : resolveStep [([] : List Char)] dd = [([] : List Char)] := by
          unfold resolveStep
          rw [if_pos rfl]
          simp
        rw [hstep]
        exact Or.inr ⟨[], by intro c hm; simp at hm, rfl⟩
      · rw [List.concat_eq_append] at hr
        subst hr
        have hrg := hg r (by simp)
        have hlast : (([] : List Char) :: (ri ++ [r])).getLast? = some r := by
          rw [← List.cons_append, List.getLast?_concat]
        have hstep : resolveStep ([] :: (ri ++ [r])) dd = [] :: ri := by
          unfold resolveStep
          rw [if_pos rfl]
          simp only [hlast]
          rw [if_neg hrg.1, if_neg hrg.2.2.1, ← List.cons_append, List.dropLast_concat]
        rw [hstep]
        exact Or.inr ⟨ri, fun x hx => hg x (List.mem_append_left [r] hx), rfl⟩
  · by_cases hdot : c = dot
    · subst hdot
      have hstep : resolveStep st dot = st := by
        unfold resolveStep
        rw [if_neg hdd, if_pos rfl]
      rw [hstep]
      exact h
    · by_cases hnil : c = []
      · subst hnil
        by_cases hst : st = []
        · subst hst
          have hstep : resolveStep [] ([] : List Char) = [[]] := rfl
          rw [hstep]
          exact Or.inr ⟨[], by intro c hm; simp at hm, rfl⟩
        · rw [resolveStep_nil_ne st hst]
          exact h
      · have hgood : goodComp c := ⟨hnil, hdot, hdd, hc⟩
        rw [resolveStep_good st hgood]
        rcases h with ⟨m, reals, hg, rfl⟩ | ⟨reals, hg, rfl⟩
        · refine Or.inl ⟨m, reals ++ [c], ?_, by rw [List.append_assoc]⟩
          intro x hx
          rcases List.mem_append.mp hx with h1 | h1
          · exact hg x h1
          · simp at h1
            exact h1 ▸ hgood
        · refine Or.inr ⟨reals ++ [c], ?_, by rw [List.cons_append]⟩
          intro x hx
          rcases List.mem_append.mp hx with h1 | h1
          · exact hg x h1
          · simp at h1
            exact h1 ▸ hgood

/-- The fold of resolve steps preserves the stack shape invariant. -/
lemma stackOk_foldl : ∀ {comps : List (List Char)} {st : List (List Char)},
    (∀ c ∈ comps, '/' ∉ c) → StackOk st → StackOk (List.foldl resolveStep st comps)
  | [], _, _, h => h
  | c :: comps, st, hc, h => by
    rw [List.foldl_cons]
    exact stackOk_foldl (fun x hx => hc x (List.mem_cons_of_mem c hx))
      (stackOk_step (hc c (by simp)) h)

/-- The last entry of a cons with a nonempty tail is the tail's last. -/
lemma getLast?_cons_of_ne {α : Type} (a : α) {l : List α} (h : l ≠ []) :
    (a :: l).getLast? = l.getLast? := by
  rw [show a :: l = [a] ++ l from rfl, List.getLast?_append_of_ne_nil _ h]

/-- A good component does not end in a slash. -/
lemma goodComp_getLast_ne {c : List Char} (h : goodComp c) : c.getLast? ≠ some '/' := by
  intro he
  obtain ⟨hne, hgl⟩ := List.mem_getLast?_eq_getLast (Option.mem_def.mpr he)
  exact h.2.2.2 (hgl ▸ List.getLast_mem hne)

/-- A good component does not start with a slash. -/
lemma goodComp_head_ne {c : List Char} (h : goodComp c) : c.head? ≠ some '/' := by
  intro he
  exact h.2.2.2 (List.mem_of_mem_head? (Option.mem_def.mpr he))

/-- The canonical absolute string ends in a slash exactly when its flag is
set. -/
lemma absStr_getLast {cs : List (List Char)} {t : Bool} (hg : goodComps cs)
    (hroot : cs = [] → t = true) :
    ((absStr cs t).getLast? = some '/') ↔ t = true := by
  unfold absStr
  cases t with
  | true =>
    simp only [if_true, iff_true]
    rcases List.eq_nil_or_concat cs with rfl | ⟨ci, r, rfl⟩
    · rfl
    · rw [List.concat_eq_append]
      have hne : joinSep ((ci ++ [r]) ++ [[]]) ≠ [] := by
        rw [joinSep_concat [] (by simp)]
        simp
      rw [getLast?_cons_of_ne _ hne, joinSep_concat_nil_getLast (by simp)]
  | false =>
    simp only [Bool.false_eq_true, iff_false, if_neg (by simp : ¬False)]
    have hcs : cs ≠ [] := fun he => by simpa using hroot he
    rcases List.eq_nil_or_concat cs with rfl | ⟨ci, r, rfl⟩
    · exact absurd rfl hcs
    · rw [List.concat_eq_append, List.append_nil]
      have hr := hg r (by simp)
      have hne : joinSep (ci ++ [r]) ≠ [] := by
        cases ci with
        | nil => simpa using hr.1
        | cons a t =>
          rw [joinSep_concat r (by simp)]
          simp
      rw [getLast?_cons_of_ne _ hne, joinSep_concat_getLast ci hr.1]
      exact goodComp_getLast_ne hr

/-- The canonical relative string ends in a slash exactly when its flag is
set. -/
lemma relStr_getLast {m : Nat} {cs : List (List Char)} {t : Bool} (hg : goodComps cs)
    (hlen : 1 ≤ m + cs.length) :
    ((relStr m cs t).getLast? = some '/') ↔ t = true := by
  unfold relStr
  have hM : List.replicate m dd ++ cs ≠ [] := by
    apply List.ne_nil_of_length_pos
    simp only [List.length_append, List.length_replicate]
    omega
  cases t with
  | true =>
    simp only [if_true, iff_true]
    rw [joinSep_concat_nil_getLast hM]
  | false =>
    simp only [Bool.false_eq_true, iff_false, if_neg (by simp : ¬False), List.append_nil]
    rcases List.eq_nil_or_concat cs with rfl | ⟨ci, r, rfl⟩
    · cases m with
      | zero => simp at hlen
      | succ n =>
        rw [List.append_nil, List.replicate_succ' n dd,
          joinSep_concat_getLast _ (by decide : dd ≠ [])]
        decide
    · rw [List.concat_eq_append, ← List.append_assoc,
        joinSep_concat_getLast _ (hg r (by simp)).1]
      exact goodComp_getLast_ne (hg r (by simp))

/-- The canonical relative string is nonempty and does not start with a
slash. -/
lemma relStr_head {m : Nat} {cs : List (List Char)} {t : Bool} (hg : goodComps cs)
    (hlen : 1 ≤ m + cs.length) :
    relStr m cs t ≠ [] ∧ (relStr m cs t).head? ≠ some '/' := by
  unfold relStr
  cases m with
  | succ n =>
    rw [List.replicate_succ, List.cons_append, List.cons_append]
    refine ⟨joinSep_ne_nil _ (by decide), ?_⟩
    rw [joinSep_head_of_ne _ (by decide : dd ≠ [])]
    decide
  | zero =>
    cases cs with
    | nil => simp at hlen
    | cons c0 cr =>
      have h0 := hg c0 (by simp)
      rw [List.replicate_zero, List.nil_append, List.cons_append]
      exact ⟨joinSep_ne_nil _ h0.1, by rw [joinSep_head_of_ne _ h0.1]; exact goodComp_head_ne h0⟩

/-- Trimming trailing slashes swallows a final slash. -/
lemma trimTrail_concat_slash (s : List Char) : trimTrail (s ++ ['/']) = trimTrail s := by
  unfold trimTrail
  rw [List.reverse_append]
  simp [List.dropWhile]

/-- Trimming trailing slashes keeps a string not ending in one. -/
lemma trimTrail_of_getLast_ne {s : List Char} (h : s.getLast? ≠ some '/') : trimTrail s = s := by
  unfold trimTrail
  rcases List.eq_nil_or_concat s with rfl | ⟨si, x, rfl⟩
  · rfl
  · rw [List.concat_eq_append] at h ⊢
    rw [List.getLast?_concat] at h
    have hx : ¬(x == '/') = true := by
      intro hb
      exact h (by rw [beq_iff_eq] at hb; rw [hb])
    rw [List.reverse_append]
    simp only [List.reverse_singleton, List.singleton_append, List.dropWhile_cons, hx,
      if_false, Bool.false_eq_true]
    rw [List.reverse_cons, List.reverse_reverse]

/-- Splitting the trimmed canonical absolute string recovers the root
sentinel and the real components. -/
lemma splitSep_trimTrail_absStr {cs : List (List Char)} {t : Bool} (hg : goodComps cs)
    (hroot : cs = [] → t = true) :
    splitSep (trimTrail (absStr cs t)) = [] :: cs := by
  have hslash : ∀ c ∈ cs, '/' ∉ c := fun c hm => (hg c hm).2.2.2
  rcases List.eq_nil_or_concat cs with rfl | ⟨ci, r, rfl⟩
  · have ht := hroot rfl
    subst ht
    show splitSep (trimTrail ['/']) = [[]]
    rfl
  · rw [List.concat_eq_append] at *
    have htrim : trimTrail (absStr (ci ++ [r]) t) = '/' :: joinSep (ci ++ [r]) := by
      unfold absStr
      cases t with
      | true =>
        simp only [if_true]
        rw [joinSep_concat [] (by simp),
          show ('/' : Char) :: (joinSep (ci ++ [r]) ++ '/' :: []) =
            ('/' :: joinSep (ci ++ [r])) ++ ['/'] from by simp,
          trimTrail_concat_slash]
        apply trimTrail_of_getLast_ne
        have hr := hg r (by simp)
        have hne : joinSep (ci ++ [r]) ≠ [] := by
          cases ci with
          | nil => simpa using hr.1
          | cons a t' =>
            rw [joinSep_concat r (by simp)]
            simp
        rw [getLast?_cons_of_ne _ hne, joinSep_concat_getLast ci hr.1]
        exact goodComp_getLast_ne hr
      | false =>
        simp only [Bool.false_eq_true, if_neg (by simp : ¬False), List.append_nil]
        apply trimTrail_of_getLast_ne
        have hr := hg r (by simp)
        have hne : joinSep (ci ++ [r]) ≠ [] := by
          cases ci with
          | nil => simpa using hr.1
          | cons a t' =>
            rw [joinSep_concat r (by simp)]
            simp
        rw [getLast?_cons_of_ne _ hne, joinSep_concat_getLast ci hr.1]
        exact goodComp_getLast_ne hr
    rw [htrim, splitSep_cons_slash, splitSep_joinSep (by simp) hslash]

/-- Every resolve_path output is empty, a canonical absolute string, or a
canonical relative string. -/
lemma resolve_forms (s : List Char) :
    resolve_path s = [] ∨
    (∃ cs t, goodComps cs ∧ (cs = [] → t = true) ∧ resolve_path s = absStr cs t) ∨
    (∃ m cs t, goodComps cs ∧ 1 ≤ m + cs.length ∧ resolve_path s = relStr m cs t) := by
  by_cases hs : s = []
  · exact Or.inl (by rw [hs]; rfl)
  have key : resolve_path s =
      (if (if s.getLast? = some '/' then
             List.foldl resolveStep [] (splitSep s) ++ [[]]
           else List.foldl resolveStep [] (splitSep s)) = [[]] then ['/']
       else joinSep (if s.getLast? = some '/' then
             List.foldl resolveStep [] (splitSep s) ++ [[]]
           else List.foldl resolveStep [] (splitSep s))) := by
    simp only [resolve_path, if_neg hs]
  rcases @stackOk_foldl (splitSep s) []
      (fun c hm => mem_splitSep_no_slash hm)
      (Or.inl ⟨0, [], fun c hm => absurd hm (List.not_mem_nil c), rfl⟩)
    with ⟨m, reals, hg, hst⟩ | ⟨reals, hg, hst⟩
  · rw [hst] at key
    by_cases he : s.getLast? = some '/'
    · rw [if_pos he] at key
      by_cases hz : m + reals.length = 0
      · have hm0 : m = 0 := by omega
        have hr0 : reals = [] := List.length_eq_zero.mp (by omega)
        subst hm0
        subst hr0
        refine Or.inr (Or.inl ⟨[], true, fun c hm => absurd hm (List.not_mem_nil c),
          fun _ => rfl, ?_⟩)
        rw [key]
        rfl
      · have hne : List.replicate m dd ++ reals ++ [[]] ≠ [[]] := by
          intro heq
          have := congrArg List.length heq
          simp at this
          omega
        rw [if_neg hne] at key
        refine Or.inr (Or.inr ⟨m, reals, true, hg, by omega, ?_⟩)
        rw [key]
        unfold relStr
        simp
    · rw [if_neg he] at key
      by_cases hz : m + reals.length = 0
      · have hm0 : m = 0 := by omega
        have hr0 : reals = [] := List.length_eq_zero.mp (by omega)
        subst hm0
        subst hr0
        exact Or.inl (by rw [key]; rfl)
      · have hne : List.replicate m dd ++ reals ≠ [[]] := by
          intro heq
          cases m with
          | zero =>
            rw [List.replicate_zero, List.nil_append] at heq
            have : ([] : List Char) ∈ reals := by rw [heq]; simp
            exact (hg [] this).1 rfl
          | succ n =>
            rw [List.replicate_succ, List.cons_append] at heq
            have : dd = ([] : List Char) := (List.cons_eq_cons.mp heq).1
            exact absurd this (by decide)
        rw [if_neg hne] at key
        refine Or.inr (Or.inr ⟨m, reals, false, hg, by omega, ?_⟩)
        rw [key]
        unfold relStr
        simp
  · rw [hst] at key
    by_cases he : s.getLast? = some '/'
    · rw [if_pos he] at key
      have hne : ([] : List Char) :: reals ++ [[]] ≠ [[]] := by
        intro heq
        have := congrArg List.length heq
        simp at this
      rw [if_neg hne] at key
      refine Or.inr (Or.inl ⟨reals, true, hg, fun _ => rfl, ?_⟩)
      rw [key]
      unfold absStr
      rw [List.cons_append, joinSep_cons [] (by simp), List.nil_append]
      simp
    · rw [if_neg he] at key
      by_cases hr : reals = []
      · subst hr
        rw [if_pos rfl] at key
        refine Or.inr (Or.inl ⟨[], true, fun c hm => absurd hm (List.not_mem_nil c),
          fun _ => rfl, ?_⟩)
        rw [key]
        rfl
      · have hne : ([] : List Char) :: reals ≠ [[]] := by
          intro heq
          exact hr (List.cons_eq_cons.mp heq).2
        rw [if_neg hne] at key
        refine Or.inr (Or.inl ⟨reals, false, hg, fun hrr => absurd hrr hr, ?_⟩)
        rw [key]
        unfold absStr
        rw [joinSep_cons [] hr, List.nil_append]
        simp

/-- resolve_path fixes every canonical relative string. -/
lemma resolve_relStr {m : Nat} {cs : List (List Char)} {t : Bool} (hg : goodComps cs)
    (hlen : 1 ≤ m + cs.length) :
    resolve_path (relStr m cs t) = relStr m cs t := by
  obtain ⟨hne, hhd⟩ := relStr_head (t := t) hg hlen
  have hcomps : List.replicate m dd ++ cs ++ (if t then [[]] else []) ≠ [] := by
    apply List.ne_nil_of_length_pos
    simp only [List.length_append, List.length_replicate]
    omega
  have hfree : ∀ c ∈ List.replicate m dd ++ cs ++ (if t then [[]] else []), '/' ∉ c := by
    intro c hm
    rcases List.mem_append.mp hm with h1 | h1
    · rcases List.mem_append.mp h1 with h2 | h2
      · rw [List.eq_of_mem_replicate h2]
        decide
      · exact (hg c h2).2.2.2
    · cases t with
      | true =>
        simp at h1
        simp [h1]
      | false => simp at h1
  have hsplit : splitSep (relStr m cs t) =
      List.replicate m dd ++ cs ++ (if t then [[]] else []) := by
    unfold relStr
    exact splitSep_joinSep hcomps hfree
  have hfold : List.foldl resolveStep [] (splitSep (relStr m cs t)) =
      List.replicate m dd ++ cs := by
    rw [hsplit, List.foldl_append, List.foldl_append]
    have h1 : List.foldl resolveStep [] (List.replicate m dd) = List.replicate m dd := by
      have := foldl_resolveStep_dds_rel m 0
      simpa using this
    rw [h1, foldl_resolveStep_good _ hg]
    cases t with
    | true =>
      simp only [if_true]
      rw [show List.foldl resolveStep (List.replicate m dd ++ cs) [[]] =
        resolveStep (List.replicate m dd ++ cs) [] from rfl]
      apply resolveStep_nil_ne
      apply List.ne_nil_of_length_pos
      simp only [List.length_append, List.length_replicate]
      omega
    | false => simp
  have hends : (relStr m cs t).getLast? = some '/' ↔ t = true := relStr_getLast hg hlen
  have hne1 : List.replicate m dd ++ cs ++ (if t then [[]] else []) ≠ [[]] := by
    intro heq
    cases m with
    | zero =>
      cases cs with
      | nil => simp at hlen
      | cons c0 cr =>
        rw [List.replicate_zero, List.nil_append, List.cons_append] at heq
        exact (hg c0 (by simp)).1 (List.cons_eq_cons.mp heq).1
    | succ n =>
      rw [List.replicate_succ, List.cons_append, List.cons_append] at heq
      exact absurd (List.cons_eq_cons.mp heq).1 (by decide : dd ≠ [])
  unfold resolve_path
  rw [if_neg hne]
  simp only [hfold]
  cases t with
  | true =>
    rw [if_pos (hends.mpr rfl)]
    simp only [if_true] at hne1 ⊢
    rw [if_neg hne1]
    unfold relStr
    simp
  | false =>
    have hef : ¬ (relStr m cs false).getLast? = some '/' := by
      intro hx
      simpa using hends.mp hx
    rw [if_neg hef]
    simp only [Bool.false_eq_true, if_false] at hne1
    simp only [List.append_nil] at hne1
    rw [if_neg hne1]
    unfold relStr
    simp

/-- resolve_path fixes every canonical absolute string. -/
lemma resolve_absStr {cs : List (List Char)} {t : Bool} (hg : goodComps cs)
    (hroot : cs = [] → t = true) :
    resolve_path (absStr cs t) = absStr cs t := by
  rcases List.eq_nil_or_concat cs with rfl | ⟨ci, r, hcs⟩
  · rw [hroot rfl]
    decide
  · have hcne : cs ≠ [] := by rw [hcs]; simp
    have hXne : cs ++ (if t then [[]] else []) ≠ [] := by
      intro heq
      rw [List.append_eq_nil] at heq
      exact hcne heq.1
    have hXfree : ∀ c ∈ cs ++ (if t then [[]] else []), '/' ∉ c := by
      intro c hm
      rcases List.mem_append.mp hm with h1 | h1
      · exact (hg c h1).2.2.2
      · cases t with
        | true =>
          simp at h1
          simp [h1]
        | false => simp at h1
    have hjne : joinSep (cs ++ (if t then [[]] else [])) ≠ [] := by
      cases hcs2 : cs with
      | nil => exact absurd hcs2 hcne
      | cons c0 cr =>
        rw [List.cons_append]
        apply joinSep_ne_nil
        exact (hg c0 (by rw [hcs2]; simp)).1
    have hsplit : splitSep (absStr cs t) = [] :: (cs ++ (if t then [[]] else [])) := by
      unfold absStr
      rw [splitSep_cons_slash, splitSep_joinSep hXne hXfree]
    have habs : absStr cs t = '/' :: joinSep (cs ++ (if t then [[]] else [])) := rfl
    have hfold : List.foldl resolveStep [] (splitSep (absStr cs t)) = [] :: cs := by
      rw [hsplit]
      rw [List.foldl_cons]
      have h0 : resolveStep [] ([] : List Char) = [[]] := rfl
      rw [h0, List.foldl_append, foldl_resolveStep_good _ hg]
      have hstk : ([([] : List Char)] : List (List Char)) ++ cs = [] :: cs := rfl
      rw [hstk]
      cases t with
      | true =>
        simp only [if_true]
        rw [show List.foldl resolveStep ([] :: cs) [[]] =
          resolveStep ([] :: cs) [] from rfl]
        exact resolveStep_nil_ne _ (by simp)
      | false => simp
    have hends := absStr_getLast hg hroot
    unfold resolve_path
    rw [if_neg (by rw [habs]; simp)]
    simp only [hfold]
    cases t with
    | true =>
      rw [if_pos (hends.mpr rfl)]
      have hne1 : ([] : List Char) :: cs ++ [[]] ≠ [[]] := by
        intro heq
        have := congrArg List.length heq
        simp at this
      rw [if_neg hne1, habs, List.cons_append, joinSep_cons [] (by simp), List.nil_append]
      simp
    | false =>
      have hef : ¬ (absStr cs false).getLast? = some '/' := by
        intro hx
        simpa using hends.mp hx
      rw [if_neg hef]
      have hne1 : ([] : List Char) :: cs ≠ [[]] := by
        intro heq
        exact hcne (List.cons_eq_cons.mp heq).2
      rw [if_neg hne1, habs, joinSep_cons [] hcne]
      simp

/-- Normalization is idempotent: resolving a canonical string returns it. -/
lemma resolve_idem (s : List Char) :
    resolve_path (resolve_path s) = resolve_path s := by
  rcases resolve_forms s with h | ⟨cs, t, hg, hroot, h⟩ | ⟨m, cs, t, hg, hlen, h⟩
  · rw [h]
    rfl
  · rw [h]
    exact resolve_absStr hg hroot
  · rw [h]
    exact resolve_relStr hg hlen

/-- A step of the longest-prefix search from a candidate stays a some. -/
lemma gaStep_isSome {T : Type} (q : List Char) (b : List Char × (Path × T))
    (x : List Char × (Path × T)) : ∃ c, gaStep q (some b) x = some c := by
  by_cases hp : List.isPrefixOf x.1 q
  · by_cases hlt : b.1.length < x.1.length
    · exact ⟨x, by simp only [gaStep, if_pos hp, if_pos hlt]⟩
    · exact ⟨b, by simp only [gaStep, if_pos hp, if_neg hlt]⟩
  · exact ⟨b, by simp only [gaStep, if_neg hp]⟩

/-- A fold of the longest-prefix search from a candidate stays a some. -/
lemma gaFold_isSome {T : Type} (q : List Char) :
    ∀ (l : List (List Char × (Path × T))) (b : List Char × (Path × T)),
      ∃ c, List.foldl (gaStep q) (some b) l = some c
  | [], b => ⟨b, rfl⟩
  | x :: l, b => by
    rw [List.foldl_cons]
    obtain ⟨d, hd⟩ := gaStep_isSome q b x
    rw [hd]
    exact gaFold_isSome q l d

/-- A fold of the longest-prefix search keeps a best candidate already as
long as the query. -/
lemma gaFold_keep {T : Type} (q : List Char) :
    ∀ (l : List (List Char × (Path × T))) (b : List Char × (Path × T)),
      q.length ≤ b.1.length → List.foldl (gaStep q) (some b) l = some b
  | [], _, _ => rfl
  | x :: l, b, hlen => by
    rw [List.foldl_cons]
    have hstep : gaStep q (some b) x = some b := by
      by_cases hp : List.isPrefixOf x.1 q
      · have hx : x.1.length ≤ q.length :=
          (List.isPrefixOf_iff_prefix.mp hp).length_le
        simp only [gaStep, if_pos hp]
        rw [if_neg (by omega)]
      · simp only [gaStep, if_neg hp]
    rw [hstep]
    exact gaFold_keep q l b hlen

/-- The full specification of the longest-prefix fold: a none outcome
means no candidate key was a prefix, and a some outcome is a prefix entry
from the accumulator or the list, at least as long as every prefix
candidate. -/
lemma gaFold_spec {T : Type} (q : List Char) :
    ∀ (l : List (List Char × (Path × T))) (acc : Option (List Char × (Path × T))),
      (∀ b, acc = some b → List.isPrefixOf b.1 q = true) →
      (List.foldl (gaStep q) acc l = none →
        acc = none ∧ ∀ e ∈ l, ¬ List.isPrefixOf e.1 q = true) ∧
      (∀ r, List.foldl (gaStep q) acc l = some r →
        (acc = some r ∨ r ∈ l) ∧ List.isPrefixOf r.1 q = true ∧
        (∀ b, acc = some b → b.1.length ≤ r.1.length) ∧
        (∀ e ∈ l, List.isPrefixOf e.1 q = true → e.1.length ≤ r.1.length))
  | [], acc, hacc => by
    refine ⟨fun hn => ⟨hn, by simp⟩, fun r hr => ?_⟩
    rw [List.foldl_nil] at hr
    exact ⟨Or.inl hr, hacc r hr, fun b hb => by rw [hr] at hb; cases hb; exact le_refl _,
      by simp⟩
  | x :: l, acc, hacc => by
    rw [List.foldl_cons]
    by_cases hp : List.isPrefixOf x.1 q = true
    · have hstep : ∃ y, gaStep q acc x = some y ∧ List.isPrefixOf y.1 q = true ∧
          x.1.length ≤ y.1.length ∧ (∀ b, acc = some b → b.1.length ≤ y.1.length) ∧
          (acc = some y ∨ y = x) := by
        cases acc with
        | none =>
          refine ⟨x, ?_, hp, le_refl _, by simp, Or.inr rfl⟩
          simp only [gaStep, if_pos hp]
        | some b =>
          by_cases hlt : b.1.length < x.1.length
          · refine ⟨x, ?_, hp, le_refl _, fun c hc => by cases hc; omega, Or.inr rfl⟩
            simp only [gaStep, if_pos hp, if_pos hlt]
          · refine ⟨b, ?_, hacc b rfl, by omega,
              fun c hc => by cases hc; exact le_refl _, Or.inl rfl⟩
            simp only [gaStep, if_pos hp, if_neg hlt]
      obtain ⟨y, hy, hyp, hxy, hby, hysrc⟩ := hstep
      rw [hy]
      have ih := gaFold_spec q l (some y) (fun b hb => by cases hb; exact hyp)
      refine ⟨fun hn => ?_, fun r hr => ?_⟩
      · obtain ⟨c, hc⟩ := gaFold_isSome q l y
        rw [hc] at hn
        cases hn
      · obtain ⟨hsrc, hrp, haccle, hlle⟩ := ih.2 r hr
        refine ⟨?_, hrp, ?_, ?_⟩
        · rcases hsrc with h1 | h1
          · rw [h1] at hysrc
            rcases hysrc with h2 | h2
            · exact Or.inl h2
            · cases h1
              exact Or.inr (by rw [h2]; exact List.mem_cons_self x l)
          · exact Or.inr (List.mem_cons_of_mem x h1)
        · intro b hb
          exact le_trans (hby b hb) (haccle y rfl)
        · intro e he hep
          rcases List.mem_cons.mp he with h1 | h1
          · rw [h1]
            exact le_trans hxy (haccle y rfl)
          · exact hlle e h1 hep
    · have hstep : gaStep q acc x = acc := by
        cases acc with
        | none => simp only [gaStep, if_neg hp]
        | some b => simp only [gaStep, if_neg hp]
      rw [hstep]
      have ih := gaFold_spec q l acc hacc
      refine ⟨fun hn => ?_, fun r hr => ?_⟩
      · obtain ⟨h1, h2⟩ := ih.1 hn
        refine ⟨h1, fun e he => ?_⟩
        rcases List.mem_cons.mp he with h3 | h3
        · rw [h3]
          exact hp
        · exact h2 e h3
      · obtain ⟨hsrc, hrp, haccle, hlle⟩ := ih.2 r hr
        refine ⟨?_, hrp, haccle, fun e he hep => ?_⟩
        · rcases hsrc with h1 | h1
          · exact Or.inl h1
          · exact Or.inr (List.mem_cons_of_mem x h1)
        · rcases List.mem_cons.mp he with h3 | h3
          · rw [h3] at hep
            exact absurd hep hp
          · exact hlle e h3 hep

/-- After an insert, the ancestor search at the inserted key finds exactly
the freshly stored entry, which holds the rebuilt separator-terminated
path. -/
lemma insert_get_ancestor_exact {T : Type} (tr : Trie T) (K : Path) (v : T) :
    (tr.insert K v).get_ancestor_entry (Trie.key K) =
      some (Trie.key K, (Path.fromStr (Trie.key K), v)) := by
  unfold Trie.insert Trie.get_ancestor_entry
  simp only [List.foldl_cons]
  have hstep : gaStep (Trie.key K) none (Trie.key K, (Path.fromStr (Trie.key K), v)) =
      some (Trie.key K, (Path.fromStr (Trie.key K), v)) := by
    simp only [gaStep, if_pos (List.isPrefixOf_iff_prefix.mpr (List.prefix_refl _))]
  rw [hstep]
  exact gaFold_keep _ _ _ (le_refl _)

/-- The spec's step and the source's step agree on every input. -/
lemma specStep_eq_resolveStep (st : List (List Char)) (c : List Char) :
    specStep st c = resolveStep st c := by
  unfold specStep resolveStep
  by_cases hdot : c = dot
  · have hdd : c ≠ dd := by rw [hdot]; decide
    rw [if_pos hdot, if_neg hdd, if_pos hdot]
  · by_cases hdd : c = dd
    · rw [if_neg hdot, if_pos hdd, if_pos hdd]
      cases hl : st.getLast? with
      | none => rfl
      | some last =>
        show (if last = [] then st else if last ≠ dd then st.dropLast else st ++ [dd]) =
          (if last = [] then st else if last = dd then st ++ [dd] else st.dropLast)
        by_cases h0 : last = []
        · rw [if_pos h0, if_pos h0]
        · rw [if_neg h0, if_neg h0]
          by_cases h2 : last = dd
          · rw [if_neg (not_not_intro h2), if_pos h2]
          · rw [if_pos h2, if_neg h2]
    · rw [if_neg hdot, if_neg hdd, if_neg hdd, if_neg hdot]

/-- The spec's left-to-right processing is the source's fold. -/
lemma specNorm_eq_foldl : ∀ (cs : List (List Char)) (st : List (List Char)),
    specNorm st cs = List.foldl resolveStep st cs
  | [], _ => rfl
  | c :: cs, st => by
    show specNorm (specStep st c) cs = _
    rw [List.foldl_cons, specStep_eq_resolveStep, specNorm_eq_foldl cs _]

/-- The source's resolve_path computes exactly the spec's resolution. -/
lemma resolve_eq_resolveSpec (s : List Char) : resolve_path s = resolveSpec s := by
  unfold resolve_path resolveSpec
  rw [specNorm_eq_foldl]

/-- Splitting the canonical absolute string recovers its components. -/
lemma splitSep_absStr {cs : List (List Char)} {t : Bool} (hg : goodComps cs)
    (hroot : cs = [] → t = true) :
    splitSep (absStr cs t) = [] :: (cs ++ (if t then [[]] else [])) := by
  rcases List.eq_nil_or_concat cs with rfl | ⟨ci, r, hcs⟩
  · rw [hroot rfl]
    rfl
  · have hcne : cs ≠ [] := by rw [hcs]; simp
    have hXne : cs ++ (if t then [[]] else []) ≠ [] := by
      intro heq
      rw [List.append_eq_nil] at heq
      exact hcne heq.1
    have hXfree : ∀ c ∈ cs ++ (if t then [[]] else []), '/' ∉ c := by
      intro c hm
      rcases List.mem_append.mp hm with h1 | h1
      · exact (hg c h1).2.2.2
      · cases t with
        | true =>
          simp at h1
          simp [h1]
        | false => simp at h1
    unfold absStr
    rw [splitSep_cons_slash, splitSep_joinSep hXne hXfree]

/-- Splitting the canonical relative string recovers its components. -/
lemma splitSep_relStr {m : Nat} {cs : List (List Char)} {t : Bool} (hg : goodComps cs)
    (hlen : 1 ≤ m + cs.length) :
    splitSep (relStr m cs t) =
      List.replicate m dd ++ cs ++ (if t then [[]] else []) := by
  have hcomps : List.replicate m dd ++ cs ++ (if t then [[]] else []) ≠ [] := by
    apply List.ne_nil_of_length_pos
    simp only [List.length_append, List.length_replicate]
    omega
  have hfree : ∀ c ∈ List.replicate m dd ++ cs ++ (if t then [[]] else []), '/' ∉ c := by
    intro c hm
    rcases List.mem_append.mp hm with h1 | h1
    · rcases List.mem_append.mp h1 with h2 | h2
      · rw [List.eq_of_mem_replicate h2]
        decide
      · exact (hg c h2).2.2.2
    · cases t with
      | true =>
        simp at h1
        simp [h1]
      | false => simp at h1
  unfold relStr
  exact splitSep_joinSep hcomps hfree

/-- A trailing separator of the input survives resolution. -/
lemma resolve_trailing {s : List Char} (hs : s ≠ []) (he : s.getLast? = some '/') :
    (resolve_path s).getLast? = some '/' := by
  unfold resolve_path
  rw [if_neg hs]
  simp only [if_pos he]
  by_cases hz : List.foldl resolveStep [] (splitSep s) ++ [[]] = [[]]
  · rw [if_pos hz]
    rfl
  · rw [if_neg hz]
    cases hst : List.foldl resolveStep [] (splitSep s) with
    | nil =>
      rw [hst] at hz
      simp at hz
    | cons a l =>
      exact joinSep_concat_nil_getLast (by simp)

/-- No dot component survives resolution. -/
lemma resolve_no_dot (s : List Char) : dot ∉ splitSep (resolve_path s) := by
  rcases resolve_forms s with h | ⟨cs, t, hg, hroot, h⟩ | ⟨m, cs, t, hg, hlen, h⟩
  · rw [h]
    decide
  · rw [h, splitSep_absStr hg hroot]
    intro hm
    rcases List.mem_cons.mp hm with h1 | h1
    · exact absurd h1 (by decide)
    · rcases List.mem_append.mp h1 with h2 | h2
      · exact (hg dot h2).2.1 rfl
      · cases t with
        | true =>
          simp at h2
          exact absurd h2 (by decide)
        | false => simp at h2
  · rw [h, splitSep_relStr hg hlen]
    intro hm
    rcases List.mem_append.mp hm with h1 | h1
    · rcases List.mem_append.mp h1 with h2 | h2
      · exact absurd (List.eq_of_mem_replicate h2) (by decide)
      · exact (hg dot h2).2.1 rfl
    · cases t with
      | true =>
        simp at h1
        exact absurd h1 (by decide)
      | false => simp at h1

/-- Trimming trailing slashes from a canonical absolute string drops the
flag and, at the root, the leading slash as well. -/
lemma trimTrail_absStr {cs : List (List Char)} {t : Bool} (hg : goodComps cs)
    (hroot : cs = [] → t = true) :
    trimTrail (absStr cs t) = if cs = [] then [] else '/' :: joinSep cs := by
  rcases List.eq_nil_or_concat cs with rfl | ⟨ci, r, hcs⟩
  · rw [hroot rfl, if_pos rfl]
    rfl
  · have hcne : cs ≠ [] := by rw [hcs]; simp
    rw [if_neg hcne]
    rw [List.concat_eq_append] at hcs
    subst hcs
    have hr := hg r (by simp)
    have hne : joinSep (ci ++ [r]) ≠ [] := by
      cases ci with
      | nil => simpa using hr.1
      | cons a t' =>
        rw [joinSep_concat r (by simp)]
        simp
    have hlast : (('/' : Char) :: joinSep (ci ++ [r])).getLast? ≠ some '/' := by
      rw [getLast?_cons_of_ne _ hne, joinSep_concat_getLast ci hr.1]
      exact goodComp_getLast_ne hr
    cases t with
    | true =>
      unfold absStr
      simp only [if_true]
      rw [joinSep_concat [] (by simp),
        show ('/' : Char) :: (joinSep (ci ++ [r]) ++ '/' :: []) =
          ('/' :: joinSep (ci ++ [r])) ++ ['/'] from by simp,
        trimTrail_concat_slash]
      exact trimTrail_of_getLast_ne hlast
    | false =>
      unfold absStr
      simp only [Bool.false_eq_true, if_neg (by simp : ¬False), List.append_nil]
      exact trimTrail_of_getLast_ne hlast

/-- An absolute constructed Path has a canonical absolute string. -/
lemma abs_form_of_is_absolute {s : List Char} (h : (Path.fromStr s).is_absolute = true) :
    ∃ cs t, goodComps cs ∧ (cs = [] → t = true) ∧ resolve_path s = absStr cs t := by
  rcases resolve_forms s with h0 | hf | ⟨m, cs, t, hg, hlen, h0⟩
  · exfalso
    unfold Path.is_absolute Path.fromStr at h
    rw [h0] at h
    simp at h
  · exact hf
  · exfalso
    unfold Path.is_absolute Path.fromStr at h
    rw [h0] at h
    rw [beq_iff_eq] at h
    exact (relStr_head hg hlen).2 h

/-- relative_to between canonical absolute strings: identical component
lists produce the empty path, and otherwise the canonical relative string
climbing out of the unshared components of the base and descending into
the unshared components of self, with self's trailing flag. -/
lemma relativeToCore_abs {csb csa : List (List Char)} {tb ta : Bool}
    (hgb : goodComps csb) (hga : goodComps csa)
    (hrb : csb = [] → tb = true) (hra : csa = [] → ta = true) :
    relativeToCore ⟨absStr csb tb⟩ ⟨absStr csa ta⟩ =
      (if csa = csb then Path.empty
       else ⟨relStr (csa.length - cplLen csb csa) (csb.drop (cplLen csb csa)) tb⟩) := by
  have hE : ((absStr csb tb).getLast? == some '/') = tb := by
    have hiff := absStr_getLast hgb hrb
    cases tb with
    | true => exact beq_iff_eq.mpr (hiff.mpr rfl)
    | false =>
      refine beq_eq_false_iff_ne.mpr (fun hcon => ?_)
      simpa using hiff.mp hcon
  have hSb := splitSep_trimTrail_absStr hgb hrb
  have hSa := splitSep_trimTrail_absStr hga hra
  have hc : cplLen ([] :: csb) ([] :: csa) = cplLen csb csa + 1 := by
    rw [cplLen_cons, if_pos rfl]
  unfold relativeToCore
  simp only
  rw [hSb, hSa, hE]
  rw [show ((([] :: csb).zip ([] :: csa)).takeWhile (fun p => p.1 == p.2)).length =
    cplLen ([] :: csb) ([] :: csa) from rfl, hc]
  rw [List.length_cons, Nat.succ_sub_succ, List.drop_succ_cons]
  by_cases heq : csa = csb
  · subst heq
    rw [if_pos rfl, cplLen_self, Nat.sub_self, List.replicate_zero, List.nil_append,
      List.drop_length]
    cases tb with
    | true =>
      simp only [if_true, List.nil_append]
      rw [if_neg (by simp : ¬([[]] : List (List Char)) = [])]
      decide
    | false =>
      simp only [Bool.false_eq_true, if_false, if_true]
      decide
  · rw [if_neg heq]
    have hk1 : cplLen csb csa ≤ csb.length := cplLen_le_left csb csa
    have hk2 : cplLen csb csa ≤ csa.length := cplLen_le_right csb csa
    have hgr : goodComps (csb.drop (cplLen csb csa)) :=
      fun c hm => hgb c (List.mem_of_mem_drop hm)
    have hlen1 : 1 ≤ (csa.length - cplLen csb csa) +
        (csb.drop (cplLen csb csa)).length := by
      rw [List.length_drop]
      by_contra hcon
      push_neg at hcon
      have h1 : cplLen csb csa = csb.length := by omega
      have h2 : cplLen csb csa = csa.length := by omega
      exact heq (cplLen_full_eq h1 h2).symm
    cases tb with
    | true =>
      simp only [if_true]
      have hne3 : List.replicate (csa.length - cplLen csb csa) dd ++
          csb.drop (cplLen csb csa) ++ [[]] ≠ [] := by simp
      rw [if_neg hne3]
      show Path.fromStr (relStr (csa.length - cplLen csb csa)
        (csb.drop (cplLen csb csa)) true) = _
      unfold Path.fromStr
      rw [resolve_relStr hgr hlen1]
    | false =>
      simp only [Bool.false_eq_true, if_false]
      have hne3 : List.replicate (csa.length - cplLen csb csa) dd ++
          csb.drop (cplLen csb csa) ≠ [] := by
        apply List.ne_nil_of_length_pos
        simp only [List.length_append, List.length_replicate]
        omega
      rw [if_neg hne3]
      have hrel : relStr (csa.length - cplLen csb csa) (csb.drop (cplLen csb csa)) false =
          joinSep (List.replicate (csa.length - cplLen csb csa) dd ++
            csb.drop (cplLen csb csa)) := by
        unfold relStr
        simp
      rw [show Path.fromStr (joinSep (List.replicate (csa.length - cplLen csb csa) dd ++
            csb.drop (cplLen csb csa))) =
          Path.fromStr (relStr (csa.length - cplLen csb csa)
            (csb.drop (cplLen csb csa)) false) from by rw [hrel]]
      unfold Path.fromStr
      rw [resolve_relStr hgr hlen1]

/-- Joining the canonical relative string produced by relative_to back
onto the base recovers the target canonical absolute string. -/
lemma join_relStr_abs {csa csb : List (List Char)} {ta tb : Bool}
    (hga : goodComps csa) (hgb : goodComps csb)
    (hra : csa = [] → ta = true) (hrb : csb = [] → tb = true)
    (hne : csa ≠ csb) :
    (Path.mk (absStr csa ta)).join
        ⟨relStr (csa.length - cplLen csb csa) (csb.drop (cplLen csb csa)) tb⟩ =
      ⟨absStr csb tb⟩ := by
  have hk1 : cplLen csb csa ≤ csb.length := cplLen_le_left csb csa
  have hk2 : cplLen csb csa ≤ csa.length := cplLen_le_right csb csa
  have hgr : goodComps (csb.drop (cplLen csb csa)) :=
    fun c hm => hgb c (List.mem_of_mem_drop hm)
  have hlen1 : 1 ≤ (csa.length - cplLen csb csa) + (csb.drop (cplLen csb csa)).length := by
    rw [List.length_drop]
    by_contra hcon
    push_neg at hcon
    exact hne (cplLen_full_eq (by omega) (by omega)).symm
  obtain ⟨hRne, hRhd⟩ :=
    relStr_head (t := tb) hgr hlen1
  have habs_ne : absStr csa ta ≠ [] := by unfold absStr; simp
  have hRabs : (Path.mk (relStr (csa.length - cplLen csb csa)
      (csb.drop (cplLen csb csa)) tb)).is_absolute = false := by
    unfold Path.is_absolute
    exact beq_eq_false_iff_ne.mpr hRhd
  unfold Path.join
  rw [if_neg hRne, if_neg (not_or.mpr ⟨habs_ne, by rw [hRabs]; simp⟩)]
  have hsOne : (if (absStr csa ta).getLast? = some '/' then absStr csa ta
      else absStr csa ta ++ ['/']) = '/' :: joinSep (csa ++ [[]]) := by
    have hiff := absStr_getLast hga hra
    cases ta with
    | true =>
      rw [if_pos (hiff.mpr rfl)]
      rfl
    | false =>
      have hcsa : csa ≠ [] := fun h => by simpa using hra h
      rw [if_neg (fun hcon => by simpa using hiff.mp hcon)]
      unfold absStr
      simp only [Bool.false_eq_true, if_false, List.append_nil]
      rw [joinSep_concat [] hcsa]
      simp
  have hRPne : List.replicate (csa.length - cplLen csb csa) dd ++
      csb.drop (cplLen csb csa) ++ (if tb then [[]] else []) ≠ [] := by
    apply List.ne_nil_of_length_pos
    simp only [List.length_append, List.length_replicate]
    omega
  have hRPfree : ∀ c ∈ List.replicate (csa.length - cplLen csb csa) dd ++
      csb.drop (cplLen csb csa) ++ (if tb then [[]] else []), '/' ∉ c := by
    intro c hm
    rcases List.mem_append.mp hm with h1 | h1
    · rcases List.mem_append.mp h1 with h2 | h2
      · rw [List.eq_of_mem_replicate h2]
        decide
      · exact (hgr c h2).2.2.2
    · cases tb with
      | true =>
        simp at h1
        simp [h1]
      | false => simp at h1
  have hconcat : ('/' :: joinSep (csa ++ [[]])) ++
      relStr (csa.length - cplLen csb csa) (csb.drop (cplLen csb csa)) tb =
      '/' :: joinSep (csa ++ (List.replicate (csa.length - cplLen csb csa) dd ++
        csb.drop (cplLen csb csa) ++ (if tb then [[]] else []))) := by
    unfold relStr
    rcases List.eq_nil_or_concat csa with rfl | ⟨ci, r, hcs⟩
    · rfl
    · have hcsa : csa ≠ [] := by rw [hcs]; simp
      rw [joinSep_concat [] hcsa, joinSep_append csa hcsa hRPne]
      simp
  have hsplit : splitSep ('/' :: joinSep (csa ++
      (List.replicate (csa.length - cplLen csb csa) dd ++
        csb.drop (cplLen csb csa) ++ (if tb then [[]] else [])))) =
      [] :: (csa ++ (List.replicate (csa.length - cplLen csb csa) dd ++
        csb.drop (cplLen csb csa) ++ (if tb then [[]] else []))) := by
    rw [splitSep_cons_slash]
    congr 1
    apply splitSep_joinSep
    · intro heq
      rw [List.append_eq_nil] at heq
      exact hRPne heq.2
    · intro c hm
      rcases List.mem_append.mp hm with h1 | h1
      · exact (hga c h1).2.2.2
      · exact hRPfree c h1
  have hfold : List.foldl resolveStep []
      ([] :: (csa ++ (List.replicate (csa.length - cplLen csb csa) dd ++
        csb.drop (cplLen csb csa) ++ (if tb then [[]] else [])))) = [] :: csb := by
    rw [List.foldl_cons,
      show resolveStep [] ([] : List Char) = [[]] from rfl,
      List.foldl_append, List.foldl_append, List.foldl_append,
      show List.foldl resolveStep [[]] csa = [] :: csa from by
        rw [foldl_resolveStep_good _ hga]; rfl,
      foldl_resolveStep_dds_abs _ _ hga,
      show csa.length - (csa.length - cplLen csb csa) = cplLen csb csa from by omega,
      show csa.take (cplLen csb csa) = csb.take (cplLen csb csa) from
        (take_cplLen csb csa).symm,
      foldl_resolveStep_good _ hgr,
      show ([] : List Char) :: csb.take (cplLen csb csa) ++ csb.drop (cplLen csb csa) =
        [] :: csb from by rw [List.cons_append, List.take_append_drop]]
    cases tb with
    | true =>
      simp only [if_true]
      exact resolveStep_nil_ne ([] :: csb) (by simp)
    | false => simp
  have hends : (('/' :: joinSep (csa ++
      (List.replicate (csa.length - cplLen csb csa) dd ++
        csb.drop (cplLen csb csa) ++ (if tb then [[]] else [])))).getLast? = some '/') ↔
      tb = true := by
    rw [← hconcat, List.getLast?_append_of_ne_nil _ hRne]
    exact relStr_getLast hgr hlen1
  rw [hsOne, hconcat]
  unfold Path.fromStr resolve_path
  rw [if_neg (by simp)]
  simp only [hsplit, hfold]
  cases tb with
  | true =>
    rw [if_pos (hends.mpr rfl)]
    have hne1 : ([] : List Char) :: csb ++ [[]] ≠ [[]] := by
      intro heq
      have := congrArg List.length heq
      simp at this
    rw [if_neg hne1]
    have : ([] : List Char) :: csb ++ [[]] = [] :: (csb ++ [[]]) := by simp
    rw [this, joinSep_cons [] (by simp)]
    unfold absStr
    simp
  | false =>
    have hcsb : csb ≠ [] := fun h => by simpa using hrb h
    have hef := (not_congr hends).mpr (by simp : ¬false = true)
    rw [if_neg hef]
    have hne1 : ([] : List Char) :: csb ≠ [[]] := by
      intro heq
      exact hcsb (List.cons_eq_cons.mp heq).2
    rw [if_neg hne1, joinSep_cons [] hcsb]
    unfold absStr
    simp

/-! Claim theorems. -/

/-- C1: resolve_path is exactly the purely lexical resolution the spec
describes — it agrees with the spec-modelled algorithm on every input,
reproduces the two literal scenarios, preserves a trailing separator
present in the input, and leaves no dot component in its output. -/
theorem c1_resolve_lexical :
    (∀ s : List Char, resolve_path s = resolveSpec s) ∧
    resolve_path "/a/b/c/./../d/".toList = "/a/b/d/".toList ∧
    resolve_path "../a/./b/c/../../".toList = "../a/".toList ∧
    (∀ s : List Char, s ≠ [] → s.getLast? = some '/' →
      (resolve_path s).getLast? = some '/') ∧
    (∀ s : List Char, dot ∉ splitSep (resolve_path s)) :=
  ⟨resolve_eq_resolveSpec, by decide, by decide,
    fun _ h1 h2 => resolve_trailing h1 h2, resolve_no_dot⟩

/-- C1 witness: the trailing-separator conjunct discharged at a concrete
input, alongside the equivalence at the same input. -/
theorem c1_witness :
    resolve_path "x/y/".toList = resolveSpec "x/y/".toList ∧
    (resolve_path "x/y/".toList).getLast? = some '/' :=
  ⟨c1_resolve_lexical.1 _, c1_resolve_lexical.2.2.2.1 _ (by decide) (by decide)⟩

/-- C4: join replaces self entirely when other is absolute, is a no-op on
an empty other, yields other on an empty self, and otherwise normalizes
self, a separator added only when self lacks a trailing one, and the raw
string of other concatenated; in particular joining an absolute path onto
another path yields the former. -/
theorem c4_join_cases :
    (∀ a b : Path,
      a.join b =
        if b.is_absolute then b
        else if b.path = [] then a
        else if a.path = [] then b
        else Path.fromStr
          (a.path ++ ((if a.path.getLast? = some '/' then [] else ['/']) ++ b.path))) ∧
    (Path.fromStr "/usr/local".toList).join (Path.fromStr "/bin".toList) =
      Path.fromStr "/bin".toList := by
  refine ⟨fun a b => ?_, by decide⟩
  by_cases hb : b.path = []
  · have habs : b.is_absolute = false := by
      unfold Path.is_absolute; rw [hb]; rfl
    simp [Path.join, hb, habs]
  · by_cases habs : b.is_absolute
    · simp [Path.join, hb, habs]
    · by_cases ha : a.path = []
      · simp [Path.join, hb, habs, ha]
      · have hor : ¬(a.path = [] ∨ b.is_absolute = true) := by
          simp [ha, habs]
        simp only [Path.join, if_neg hb, if_neg hor, habs, Bool.false_eq_true, if_false,
          if_neg hb, if_neg ha]
        by_cases he : a.path.getLast? = some '/' <;> simp [he] <;>
          exact fun h => absurd h ha

/-- C6, corrected: resolve_path in src/lib.rs maps the empty input to the
empty path unchanged, and so does Path construction; but normalize_path in
src/path.rs maps the empty input to the dot string, as its own unit test
asserts. -/
theorem c6_amended :
    resolve_path [] = [] ∧ Path.fromStr [] = Path.empty ∧ normalize_path [] = dot := by
  decide

/-- C6 counterexample: normalize_path does not map the empty input to the
empty string. -/
theorem c6_counterexample : ¬ normalize_path [] = [] := by decide

/-- C8: relative_to reaches its computation exactly when both operands are
absolute, and otherwise aborts through its assertions, modelled as none;
in particular a relative self aborts. -/
theorem c8_relative_to_aborts :
    (∀ self other : Path,
      (self.relative_to other).isSome = (self.is_absolute && other.is_absolute)) ∧
    (Path.mk "var/log".toList).relative_to (Path.mk "/home/user/docs".toList) = none := by
  refine ⟨fun s o => ?_, by decide⟩
  unfold Path.relative_to
  by_cases h : (s.is_absolute && o.is_absolute) = true <;> simp [h]

/-- C8 witness: a concrete absolute pair makes relative_to return a value. -/
theorem c8_witness :
    ((Path.fromStr "/a/b".toList).relative_to (Path.fromStr "/a".toList)).isSome =
      ((Path.fromStr "/a/b".toList).is_absolute && (Path.fromStr "/a".toList).is_absolute) ∧
    ((Path.fromStr "/a/b".toList).is_absolute && (Path.fromStr "/a".toList).is_absolute) = true :=
  ⟨c8_relative_to_aborts.1 _ _, by decide⟩

/-- C10: contains is plain string-prefix containment on the canonical
strings, and in particular a path without a trailing separator contains
every path whose string merely extends its own. -/
theorem c10_contains_plain :
    (∀ a b : Path, a.contains b = true ↔ a.path <+: b.path) ∧
    (Path.fromStr "/ab".toList).contains (Path.fromStr "/abc".toList) = true := by
  refine ⟨fun a b => ?_, by decide⟩
  unfold Path.contains
  rw [Bool.or_eq_true, List.isPrefixOf_iff_prefix, beq_iff_eq]
  constructor
  · rintro (h | h)
    · exact h
    · rw [h]
  · intro h
    exact Or.inl h

/-- C3 counterexample: relative_to of a path against itself yields the
empty path, whose canonical string is not the dot string. -/
theorem c3_counterexample :
    (Path.fromStr "/home/user/docs".toList).relative_to
      (Path.fromStr "/home/user/docs".toList) = some Path.empty ∧
    Path.empty.path ≠ dot := by decide

/-- C3, corrected: for every absolute path, relative_to against itself
returns the empty path; the source builds the dot path there, but the
construction normalizes the dot string to the empty string. -/
theorem c3_amended (p : Path) (h : p.is_absolute = true) :
    p.relative_to p = some Path.empty := by
  unfold Path.relative_to
  rw [h]
  simp only [Bool.and_self, if_pos]
  unfold relativeToCore
  simp only [commonCount_self, List.replicate, Nat.sub_self, List.nil_append,
    List.drop_length]
  by_cases he : p.path.getLast? == some '/' <;> simp [he] <;> decide

/-- C3 witness: the amended statement at a concrete absolute path. -/
theorem c3_witness :
    (Path.fromStr "/home/user".toList).is_absolute = true ∧
    (Path.fromStr "/home/user".toList).relative_to (Path.fromStr "/home/user".toList) =
      some Path.empty :=
  ⟨by decide, c3_amended _ (by decide)⟩

/-- C5 counterexample: two absolute paths that differ only in the trailing
separator defeat the round trip, since the empty relative path makes join
a no-op. -/
theorem c5_counterexample :
    (Path.fromStr "/a".toList).is_absolute = true ∧
    (Path.fromStr "/a/".toList).is_absolute = true ∧
    (Path.fromStr "/a/".toList).relative_to (Path.fromStr "/a".toList) = some Path.empty ∧
    (Path.fromStr "/a".toList).join Path.empty = Path.fromStr "/a".toList ∧
    Path.fromStr "/a".toList ≠ Path.fromStr "/a/".toList := by decide

/-- C5, corrected: for absolute paths a and b, a.join(b.relative_to(a))
recovers b whenever a and b are not the same path differing only in the
trailing separator; in that excluded situation relative_to returns the
empty path and join is a no-op, so the result is a rather than b. -/
theorem c5_amended (s t : List Char)
    (hsa : (Path.fromStr s).is_absolute = true)
    (hta : (Path.fromStr t).is_absolute = true)
    (htrim : trimTrail (Path.fromStr s).path = trimTrail (Path.fromStr t).path →
      Path.fromStr s = Path.fromStr t) :
    ∃ r, (Path.fromStr t).relative_to (Path.fromStr s) = some r ∧
      (Path.fromStr s).join r = Path.fromStr t := by
  obtain ⟨csa, ta, hga, hra, hfa⟩ := abs_form_of_is_absolute hsa
  obtain ⟨csb, tb, hgb, hrb, hfb⟩ := abs_form_of_is_absolute hta
  have hA : Path.fromStr s = ⟨absStr csa ta⟩ := by unfold Path.fromStr; rw [hfa]
  have hB : Path.fromStr t = ⟨absStr csb tb⟩ := by unfold Path.fromStr; rw [hfb]
  have habsA : (Path.mk (absStr csa ta)).is_absolute = true := rfl
  have habsB : (Path.mk (absStr csb tb)).is_absolute = true := rfl
  have hrel : (Path.mk (absStr csb tb)).relative_to ⟨absStr csa ta⟩ =
      some (relativeToCore ⟨absStr csb tb⟩ ⟨absStr csa ta⟩) := by
    unfold Path.relative_to
    rw [habsB, habsA]
    rfl
  have hcore := relativeToCore_abs hgb hga hrb hra
  rw [hA, hB]
  by_cases heq : csa = csb
  · have hAB : Path.mk (absStr csa ta) = Path.mk (absStr csb tb) := by
      rw [← hA, ← hB]
      apply htrim
      rw [hA, hB]
      show trimTrail (absStr csa ta) = trimTrail (absStr csb tb)
      rw [trimTrail_absStr hga hra, trimTrail_absStr hgb hrb, heq]
    refine ⟨Path.empty, ?_, ?_⟩
    · rw [hrel, hcore, if_pos heq]
    · rw [show (Path.mk (absStr csa ta)).join Path.empty = ⟨absStr csa ta⟩ from rfl, hAB]
  · refine ⟨⟨relStr (csa.length - cplLen csb csa) (csb.drop (cplLen csb csa)) tb⟩, ?_, ?_⟩
    · rw [hrel, hcore, if_neg heq]
    · exact join_relStr_abs hga hgb hra hrb heq

/-- C5 witness: the amended round trip at a concrete absolute pair, its
hypotheses discharged by evaluation. -/
theorem c5_witness :
    ∃ r, (Path.fromStr "/home/user/docs/x".toList).relative_to
        (Path.fromStr "/home/user".toList) = some r ∧
      (Path.fromStr "/home/user".toList).join r = Path.fromStr "/home/user/docs/x".toList :=
  c5_amended _ _ (by decide) (by decide) (by decide)

/-- C7: the iterator contradicts the claim on the code itself: for a
relative path the first yielded item is the absolute root rather than the
first component, and next_back never restores the trailing slash, so the
backward sequence is not the reverse of the forward one. -/
theorem c7_code_bug :
    (Path.fromStr "/usr/local/".toList).iter_path.frontItems =
      [Path.root, Path.fromStr "/usr/".toList, Path.fromStr "/usr/local/".toList] ∧
    (Path.fromStr "/usr/local/".toList).iter_path.backItems =
      [Path.fromStr "/usr/local".toList, Path.fromStr "/usr".toList, Path.root] ∧
    (Path.fromStr "/usr/local/".toList).iter_path.backItems ≠
      ((Path.fromStr "/usr/local/".toList).iter_path.frontItems).reverse ∧
    (Path.fromStr "a/b".toList).iter_path.frontItems =
      [Path.root, Path.fromStr "a/b".toList] := by decide

/-- C2: ancestor lookup returns the entry with the longest stored key that
is a textual prefix of the probe's separator-terminated key, and nothing
when no stored key is such a prefix; the forced trailing separator keeps
an inserted key from matching a longer sibling name, and an exact insert
is returned as the longest such prefix. -/
theorem c2_ancestor_longest :
    (∀ (T : Type) (tr : Trie T) (K : Path) (v : T),
      tr.get_ancestor_value K = some v →
        ∃ k p, (k, (p, v)) ∈ tr.entries ∧ List.isPrefixOf k (Trie.key K) = true ∧
          ∀ e ∈ tr.entries, List.isPrefixOf e.1 (Trie.key K) = true →
            e.1.length ≤ k.length) ∧
    (∀ (T : Type) (tr : Trie T) (K : Path),
      tr.get_ancestor_value K = none →
        ∀ e ∈ tr.entries, ¬ List.isPrefixOf e.1 (Trie.key K) = true) ∧
    (∀ (T : Type) (tr : Trie T) (K : Path) (v : T),
      (tr.insert K v).get_ancestor_value K = some v) ∧
    ((Trie.emptyT Nat).insert (Path.fromStr "/ab".toList) 0).get_ancestor_value
      (Path.fromStr "/abc".toList) = none := by
  refine ⟨?_, ?_, ?_, by decide⟩
  · intro T tr K v hv
    unfold Trie.get_ancestor_value at hv
    obtain ⟨r, hr, hrv⟩ := Option.map_eq_some'.mp hv
    obtain ⟨hsrc, hrp, _, hmax⟩ :=
      (gaFold_spec (Trie.key K) tr.entries none (by simp)).2 r hr
    rcases hsrc with h1 | h1
    · cases h1
    · refine ⟨r.1, r.2.1, ?_, hrp, hmax⟩
      rw [← hrv]
      simpa using h1
  · intro T tr K hv
    unfold Trie.get_ancestor_value at hv
    rw [Option.map_eq_none'] at hv
    exact ((gaFold_spec (Trie.key K) tr.entries none (by simp)).1 hv).2
  · intro T tr K v
    unfold Trie.get_ancestor_value
    rw [insert_get_ancestor_exact]
    rfl

/-- C2 witness: the longest-prefix description instantiated on a concrete
one-entry trie, its hypothesis discharged by evaluation. -/
theorem c2_witness :
    ∃ k p,
      (k, (p, 3)) ∈ ((Trie.emptyT Nat).insert (Path.fromStr "/x/y/".toList) 3).entries ∧
      List.isPrefixOf k (Trie.key (Path.fromStr "/x/y/z".toList)) = true ∧
      ∀ e ∈ ((Trie.emptyT Nat).insert (Path.fromStr "/x/y/".toList) 3).entries,
        List.isPrefixOf e.1 (Trie.key (Path.fromStr "/x/y/z".toList)) = true →
          e.1.length ≤ k.length :=
  c2_ancestor_longest.1 Nat _ _ 3 (by decide)

/-- C9, corrected: insert stores the Path rebuilt from the forced
separator-terminated key rather than the original inserted Path, and the
ancestor lookup returns that rebuilt path; the two coincide exactly when
the inserted path's canonical string already ends in the separator. -/
theorem c9_amended :
    (∀ (T : Type) (tr : Trie T) (K : Path) (v : T),
      (tr.insert K v).get_ancestor_path K = some (Path.fromStr (Trie.key K))) ∧
    (∀ s : List Char, (Path.fromStr s).path.getLast? = some '/' →
      Path.fromStr (Trie.key (Path.fromStr s)) = Path.fromStr s) := by
  constructor
  · intro T tr K v
    unfold Trie.get_ancestor_path
    rw [insert_get_ancestor_exact]
    rfl
  · intro s hs
    unfold Trie.key
    rw [if_pos hs]
    show Path.fromStr (resolve_path s) = Path.fromStr s
    unfold Path.fromStr
    rw [resolve_idem]

/-- C9 witness: the amended statement at a concrete trie and a concrete
separator-terminated path. -/
theorem c9_witness :
    ((Trie.emptyT Nat).insert (Path.fromStr "/p/q/".toList) 5).get_ancestor_path
      (Path.fromStr "/p/q/".toList) =
        some (Path.fromStr (Trie.key (Path.fromStr "/p/q/".toList))) ∧
    Path.fromStr (Trie.key (Path.fromStr "/p/q/".toList)) = Path.fromStr "/p/q/".toList :=
  ⟨c9_amended.1 Nat _ _ 5, c9_amended.2 _ (by decide)⟩

/-- C9 counterexample: inserting a path without a trailing separator
stores the rebuilt separator-terminated path, not the inserted path. -/
theorem c9_counterexample :
    ((Trie.emptyT Nat).insert (Path.fromStr "/a".toList) 7).get_ancestor_path
      (Path.fromStr "/a".toList) = some (Path.fromStr "/a/".toList) ∧
    Path.fromStr "/a/".toList ≠ Path.fromStr "/a".toList := by decide

end Arca
